import Mathlib

/-!
Verification of the queue helpers and the run command of the kvm tool.

Embedded sources:

* `tools/kvm/include/kvm/virtio.h`: `struct virt_queue`, `virt_queue__pop`,
  `virt_queue__get_desc`, `virt_queue__available`, `guest_pfn_to_host`;
* `tools/kvm/kvm-run.c`: `img_name_parser`, `kvm_cpu_thread` and the parts of
  `kvm_cmd_run` that size the guest RAM, limit the CPU count and compute the
  exit code.

Machine integers are natural numbers (or integers for `int`) with the
wrap-around written out as `% 2 ^ w`.  Undefined behaviour of the C code (null
dereference, division by zero, a read outside an array) and `die()` are the
result `none`.
-/

namespace Kvm

/-! ## Data model of `virtio.h` -/

/-- Modelled from the spec: `struct vring_desc` of `<linux/virtio_ring.h>`, a header that
is not among the sources; one descriptor `(addr, len)` with its `flags` and `next` link. -/
structure vring_desc where
  addr : Nat
  len : Nat
  flags : Nat
  next : Nat
deriving DecidableEq, Repr

/-- Modelled from the spec: `struct vring_avail` of `<linux/virtio_ring.h>`: the
guest-written available ring, `flags`, the 16-bit `idx` and the slots `ring[]`. -/
structure vring_avail where
  flags : Nat
  idx : Nat
  ring : List Nat
deriving DecidableEq, Repr

/-- Modelled from the spec: `struct vring_used_elem` of `<linux/virtio_ring.h>`: a retired
head `id` with the number of bytes written `len`. -/
structure vring_used_elem where
  id : Nat
  len : Nat
deriving DecidableEq, Repr

/-- Modelled from the spec: `struct vring_used` of `<linux/virtio_ring.h>`: the
monitor-written used ring. -/
structure vring_used where
  flags : Nat
  idx : Nat
  ring : List vring_used_elem
deriving DecidableEq, Repr

/-- Modelled from the spec: `struct vring` of `<linux/virtio_ring.h>`: the ring size `num`
(an `unsigned int`) and the three pointers `desc`, `avail`, `used` into guest memory.  A
pointer is modelled by what it points to, and `none` is the null pointer. -/
structure vring where
  num : Nat
  desc : Option (List vring_desc)
  avail : Option vring_avail
  used : Option vring_used
deriving DecidableEq, Repr

/-- The `struct virt_queue` of `virtio.h`: the ring, its page frame number (`u32`) and the
shadow cursor `last_avail_idx` (`u16`). -/
structure virt_queue where
  vring : vring
  pfn : Nat
  last_avail_idx : Nat
deriving DecidableEq, Repr

/-! ## The queue helpers -/

/-- The function `virt_queue__pop`:
`return queue->vring.avail->ring[queue->last_avail_idx++ % queue->vring.num];`.
The post-increment yields the old cursor and stores the new one in 16 bits.  The result is
`none` where the C code has no defined result: a null `avail`, `num = 0`, or a slot outside
the ring. -/
def virt_queue__pop (queue : virt_queue) : Option (Nat × virt_queue) :=
  match queue.vring.avail with
  | none => none
  | some avail =>
    if queue.vring.num = 0 then none
    else
      match avail.ring[queue.last_avail_idx % queue.vring.num]? with
      | none => none
      | some head =>
        some (head, { queue with last_avail_idx := (queue.last_avail_idx + 1) % 2 ^ 16 })

/-- The function `virt_queue__get_desc`: `return &queue->vring.desc[desc_ndx];`.  The
returned pointer is modelled by the descriptor it designates (`none` when the table is not
set up or the index lies outside it); the second component is the queue after the call. -/
def virt_queue__get_desc (queue : virt_queue) (desc_ndx : Nat) :
    Option vring_desc × virt_queue :=
  (match queue.vring.desc with
   | none => none
   | some desc => desc[desc_ndx]?,
   queue)

/-- The function `virt_queue__available`:
`if (!vq->vring.avail) return 0; return vq->vring.avail->idx != vq->last_avail_idx;`.
The second component is the queue after the call. -/
def virt_queue__available (vq : virt_queue) : Bool × virt_queue :=
  match vq.vring.avail with
  | none => (false, vq)
  | some avail => (decide (avail.idx ≠ vq.last_avail_idx), vq)

/-- A run of `k` consecutive calls of `virt_queue__pop` on the same queue, collecting the
returned heads in call order. -/
def virt_queue__pop_many : Nat → virt_queue → Option (List Nat × virt_queue)
  | 0, queue => some ([], queue)
  | k + 1, queue =>
    match virt_queue__pop queue with
    | none => none
    | some (head, queue1) =>
      match virt_queue__pop_many k queue1 with
      | none => none
      | some (heads, queue2) => some (head :: heads, queue2)

/-! ## Guest addresses -/

/-- Modelled from the spec: `struct kvm` of `kvm/kvm.h`, a header that is not among the
sources.  Only what the embedded code touches: the host base address `ram_start` and the
size `ram_size` of the guest memory region, and the CPU count `nrcpus` (an `int`). -/
structure kvm where
  ram_start : Nat
  ram_size : Nat
  nrcpus : Int
deriving DecidableEq, Repr

/-- Modelled from the spec: `guest_flat_to_host` of `kvm/kvm.h`, the `translate_gpa` of the
spec: a guest physical address `g` below the region size `R` maps to the host address
`H + g`, and an address at or above `R` faults (`none`). -/
def guest_flat_to_host (self : kvm) (offset : Nat) : Option Nat :=
  if offset < self.ram_size then some (self.ram_start + offset) else none

/-- Modelled from the spec: `VIRTIO_PCI_QUEUE_ADDR_SHIFT` of `<linux/virtio_pci.h>`; the
queue address is `pfn << 12`. -/
def VIRTIO_PCI_QUEUE_ADDR_SHIFT : Nat := 12

/-- The function `guest_pfn_to_host`:
`return guest_flat_to_host(kvm, (unsigned long)pfn << VIRTIO_PCI_QUEUE_ADDR_SHIFT);`.
The width of `unsigned long` depends on the host (32 bits on 32-bit hosts, 64 bits on
64-bit Linux hosts) and is the parameter `ulong_bits`: the cast converts the `u32` into that
width and the shift is computed modulo `2 ^ ulong_bits`. -/
def guest_pfn_to_host (ulong_bits : Nat) (self : kvm) (pfn : Nat) : Option Nat :=
  guest_flat_to_host self
    (((pfn % 2 ^ ulong_bits) <<< VIRTIO_PCI_QUEUE_ADDR_SHIFT) % 2 ^ ulong_bits)

/-! ## `kvm-run.c`: disk image arguments -/

/-- The constant `MAX_DISK_IMAGES`. -/
def MAX_DISK_IMAGES : Nat := 4

/-- The file-scope variables that `img_name_parser` uses: `image_count` (`u8`),
`image_filename[MAX_DISK_IMAGES]` and `readonly_image[MAX_DISK_IMAGES]`.  A file name is a
pointer into the argument; it is modelled by the bytes of the buffer it points to (`none`
is the null pointer), so that a later write into the buffer shows through the pointer. -/
structure run_globals where
  image_count : Nat
  image_filename : List (Option (List Nat))
  readonly_image : List Bool
deriving DecidableEq, Repr

/-- The variables as the C runtime initialises them: counters zero, pointers null, flags
false. -/
def run_globals_init : run_globals :=
  { image_count := 0,
    image_filename := List.replicate MAX_DISK_IMAGES none,
    readonly_image := List.replicate MAX_DISK_IMAGES false }

/-- The C string that starts at the head of a buffer: its bytes up to the first NUL. -/
def c_str (buf : List Nat) : List Nat :=
  buf.takeWhile (fun b => b ≠ 0)

/-- The call `strstr(s, ",")` on the C string in `buf`: the offset of the first comma
(byte 44) before the terminating NUL, or `none` (the null pointer) when there is none. -/
def strstr_comma : List Nat → Option Nat
  | [] => none
  | b :: rest =>
    if b = 0 then none
    else if b = 44 then some 0
    else (strstr_comma rest).map (fun i => i + 1)

/-- The function `img_name_parser` (here `img_name_parse`) on the argument buffer `arg` (a
NUL-terminated byte buffer).  `die` is the result `none`.  The bytes 114, 111 are the text `ro`.
```
if (image_count >= MAX_DISK_IMAGES) die(...);
image_filename[image_count] = arg;
sep = strstr(arg, ",");
if (sep) { if (strcmp(sep + 1, "ro") == 0) readonly_image[image_count] = 1; *sep = 0; }
image_count++;
```
-/
def img_name_parse (g : run_globals) (arg : List Nat) : Option run_globals :=
  if g.image_count ≥ MAX_DISK_IMAGES then none
  else
    match strstr_comma arg with
    | none =>
      some { g with
        image_filename := g.image_filename.set g.image_count (some arg),
        image_count := (g.image_count + 1) % 2 ^ 8 }
    | some sep =>
      let readonly_image :=
        if c_str (arg.drop (sep + 1)) = [114, 111] then g.readonly_image.set g.image_count true
        else g.readonly_image
      some { g with
        image_filename := g.image_filename.set g.image_count (some (arg.set sep 0)),
        readonly_image := readonly_image,
        image_count := (g.image_count + 1) % 2 ^ 8 }

/-- The option parser calling `img_name_parser` once per `--disk` argument, in command-line
order; a fatal call ends the run. -/
def img_name_parse_all : List (List Nat) → run_globals → Option run_globals
  | [], g => some g
  | arg :: rest, g =>
    match img_name_parse g arg with
    | none => none
    | some g1 => img_name_parse_all rest g1

/-- What the globals satisfy between calls of `img_name_parser`: at most 4 images, arrays of
4 slots, and no read-only flag set at or above the next free slot. -/
def run_globals_fresh (g : run_globals) : Prop :=
  g.image_count ≤ MAX_DISK_IMAGES ∧ g.image_filename.length = MAX_DISK_IMAGES ∧
    g.readonly_image.length = MAX_DISK_IMAGES ∧
    ∀ i, i < MAX_DISK_IMAGES → g.image_count ≤ i → g.readonly_image[i]? = some false

instance (g : run_globals) : Decidable (run_globals_fresh g) := by
  unfold run_globals_fresh
  infer_instance

/-! ## `kvm-run.c`: guest RAM size, CPU count and exit code -/

/-- The constant `MB_SHIFT`. -/
def MB_SHIFT : Nat := 20

/-- The constant `MIN_RAM_SIZE_MB`. -/
def MIN_RAM_SIZE_MB : Nat := 64

/-- The constant `MIN_RAM_SIZE_BYTE`, `MIN_RAM_SIZE_MB << MB_SHIFT`. -/
def MIN_RAM_SIZE_BYTE : Nat := MIN_RAM_SIZE_MB <<< MB_SHIFT

/-- The RAM sizing of `kvm_cmd_run` on the `u64` variable `ram_size` (MiB as parsed from
`--mem`, 0 when the option is absent):
```
if (!ram_size) ram_size = get_ram_size(nrcpus);
if (ram_size < MIN_RAM_SIZE_MB) die(...);
if (ram_size > host_ram_size()) pr_warning(...);
ram_size <<= MB_SHIFT;
...
kvm = kvm__init(kvm_dev, ram_size);
```
The values that `get_ram_size(nrcpus)` and `host_ram_size()` return are the parameters
`auto_ram` and `host_ram`.  The result is `none` on `die`, and otherwise whether the
warning is printed together with the byte count handed to `kvm__init`. -/
def kvm_cmd_run_ram (ram_size auto_ram host_ram : Nat) : Option (Bool × Nat) :=
  let ram_size := if ram_size = 0 then auto_ram else ram_size
  if ram_size < MIN_RAM_SIZE_MB then none
  else some (decide (ram_size > host_ram), (ram_size <<< MB_SHIFT) % 2 ^ 64)

/-- The CPU limiting of `kvm_cmd_run`, with `max_cpus` the value of `kvm__max_cpus(kvm)`:
```
if (nrcpus > max_cpus) {
	printf("  # Limit the number of CPUs to %d\n", max_cpus);
	kvm->nrcpus	= max_cpus;
}

kvm->nrcpus = nrcpus;
```
-/
def kvm_cmd_run_limit_cpus (self : kvm) (nrcpus max_cpus : Int) : kvm :=
  let self := if nrcpus > max_cpus then { self with nrcpus := max_cpus } else self
  { self with nrcpus := nrcpus }

/-- The completion value of `kvm_cpu_thread`, from the value `kvm_cpu__start` returned:
`(void *) 0` after a normal end and `(void *) 1` on the `panic_kvm` path. -/
def kvm_cpu_thread (start_result : Int) : Nat :=
  if start_result ≠ 0 then 1 else 0

/-- The join loop of `kvm_cmd_run` over the completion values of the threads, in the order
they are joined (every `pthread_join` succeeding), and the returned `exit_code`:
```
int exit_code = 0;
for (i = 0; i < nrcpus; i++) { ... if (ret != NULL) exit_code = 1; }
return exit_code;
```
-/
def kvm_cmd_run_join (rets : List Nat) : Int :=
  rets.foldl (fun exit_code ret => if ret ≠ 0 then 1 else exit_code) 0

/-- The exit code of `kvm_cmd_run` from the values that `kvm_cpu__start` returned on the
vCPU threads, listed in join order. -/
def kvm_cmd_run_exit_code (start_results : List Int) : Int :=
  kvm_cmd_run_join (start_results.map kvm_cpu_thread)

/-! ## Theorems: the queue helpers -/

/-- A ring size that divides `2 ^ 16` makes the ring slot of a wrapped cursor the slot of
the unwrapped one. -/
theorem slot_of_wrapped_cursor (n c j : Nat) (hdvd : n ∣ 2 ^ 16) :
    ((c + 1) % 2 ^ 16 + j) % n = (c + (j + 1)) % n := by
  rw [Nat.add_mod, Nat.mod_mod_of_dvd _ hdvd, ← Nat.add_mod]
  congr 1
  omega

/-- Advancing a wrapped cursor `k` more times is advancing the cursor `k + 1` times. -/
theorem cursor_after_wrapped (c k : Nat) :
    ((c + 1) % 2 ^ 16 + k) % 2 ^ 16 = (c + (k + 1)) % 2 ^ 16 := by
  omega

/-- On a queue whose avail ring is set up with as many slots as the ring size, and that
size is not zero, `virt_queue__pop` returns the slot at the cursor and stores the cursor
plus one, wrapped to 16 bits. -/
theorem virt_queue__pop_eq (queue : virt_queue) (avail : vring_avail)
    (havail : queue.vring.avail = some avail)
    (hnum : 0 < queue.vring.num)
    (hring : avail.ring.length = queue.vring.num) :
    ∃ hslot : queue.last_avail_idx % queue.vring.num < avail.ring.length,
      virt_queue__pop queue =
        some (avail.ring[queue.last_avail_idx % queue.vring.num],
              { queue with last_avail_idx := (queue.last_avail_idx + 1) % 2 ^ 16 }) := by
  have hslot : queue.last_avail_idx % queue.vring.num < avail.ring.length := by
    rw [hring]
    exact Nat.mod_lt _ hnum
  refine ⟨hslot, ?_⟩
  have hne : queue.vring.num ≠ 0 := Nat.pos_iff_ne_zero.mp hnum
  simp [virt_queue__pop, havail, hne, List.getElem?_eq_getElem hslot]

/-- C1: for a queue with ring size `N > 0` whose avail ring holds its `N` slots, and any
cursor `c = last_avail_idx`, `virt_queue__pop` returns the entry `avail.ring[c mod N]`,
the index `c mod N` lies within the `N` ring slots, and `last_avail_idx` is left equal to
`(c + 1) mod 2 ^ 16`. -/
theorem virt_queue__pop_spec (queue : virt_queue) (avail : vring_avail)
    (havail : queue.vring.avail = some avail)
    (hnum : 0 < queue.vring.num)
    (hring : avail.ring.length = queue.vring.num) :
    ∃ hslot : queue.last_avail_idx % queue.vring.num < avail.ring.length,
      queue.last_avail_idx % queue.vring.num < queue.vring.num ∧
      ∃ queue1, virt_queue__pop queue =
          some (avail.ring[queue.last_avail_idx % queue.vring.num], queue1) ∧
        queue1.last_avail_idx = (queue.last_avail_idx + 1) % 2 ^ 16 := by
  obtain ⟨hslot, hpop⟩ := virt_queue__pop_eq queue avail havail hnum hring
  exact ⟨hslot, Nat.mod_lt _ hnum, _, hpop, rfl⟩

/-- C1 at a concrete queue: ring size 4, cursor 65535 (the last 16-bit value), ring
`[10, 11, 12, 13]`; the pop reads slot 3 and the cursor wraps to 0. -/
theorem virt_queue__pop_spec_witness :
    ∃ hslot : 65535 % 4 < [10, 11, 12, 13].length,
      65535 % 4 < 4 ∧
      ∃ queue1, virt_queue__pop
          { vring := { num := 4, desc := none,
                       avail := some { flags := 0, idx := 2, ring := [10, 11, 12, 13] },
                       used := none },
            pfn := 7, last_avail_idx := 65535 } =
          some ([10, 11, 12, 13][65535 % 4], queue1) ∧
        queue1.last_avail_idx = (65535 + 1) % 2 ^ 16 :=
  virt_queue__pop_spec
    { vring := { num := 4, desc := none,
                 avail := some { flags := 0, idx := 2, ring := [10, 11, 12, 13] },
                 used := none },
      pfn := 7, last_avail_idx := 65535 }
    { flags := 0, idx := 2, ring := [10, 11, 12, 13] } rfl (by decide) rfl

/-- C2: `virt_queue__available` returns true if and only if the avail ring is set up
(`vring.avail` is not null) and `avail.idx` differs from `last_avail_idx`. -/
theorem virt_queue__available_iff (vq : virt_queue) :
    (virt_queue__available vq).1 = true ↔
      ∃ avail, vq.vring.avail = some avail ∧ avail.idx ≠ vq.last_avail_idx := by
  unfold virt_queue__available
  cases h : vq.vring.avail with
  | none => simp
  | some avail => simp

/-- C5: the queue helpers leave the rings alone.  Whenever `virt_queue__pop` returns, the
queue it leaves differs from the queue it got in `last_avail_idx` only: the ring size, the
descriptor table, the avail ring, the used ring and the pfn are the same (and it does
return on a queue whose avail ring is set up with a non-zero number of slots);
`virt_queue__available` and `virt_queue__get_desc` leave the whole queue as it was. -/
theorem queue_helpers_frame (queue : virt_queue) (desc_ndx : Nat) :
    (∀ head queue1, virt_queue__pop queue = some (head, queue1) →
        queue1.vring.num = queue.vring.num ∧ queue1.vring.desc = queue.vring.desc ∧
        queue1.vring.avail = queue.vring.avail ∧ queue1.vring.used = queue.vring.used ∧
        queue1.pfn = queue.pfn ∧
        queue1 = { queue with last_avail_idx := queue1.last_avail_idx }) ∧
    (∀ avail, queue.vring.avail = some avail → 0 < queue.vring.num →
        avail.ring.length = queue.vring.num → (virt_queue__pop queue).isSome = true) ∧
    (virt_queue__available queue).2 = queue ∧
    (virt_queue__get_desc queue desc_ndx).2 = queue := by
  refine ⟨?_, ?_, ?_, rfl⟩
  · intro head queue1 hpop
    unfold virt_queue__pop at hpop
    cases havail : queue.vring.avail with
    | none => simp [havail] at hpop
    | some avail =>
      simp only [havail] at hpop
      split at hpop
      · simp at hpop
      · split at hpop
        · simp at hpop
        · simp only [Option.some.injEq, Prod.mk.injEq] at hpop
          obtain ⟨-, rfl⟩ := hpop
          simp [havail]
  · intro avail havail hnum hring
    obtain ⟨_, hpop⟩ := virt_queue__pop_eq queue avail havail hnum hring
    simp [hpop]
  · unfold virt_queue__available
    cases queue.vring.avail <;> rfl

/-- C8: for a ring size `N = 2 ^ e` with `e ≤ 15` (so `1 ≤ N ≤ 32768`), any starting
cursor `c` and any `k`, `k` consecutive calls of `virt_queue__pop` on an unchanged avail
ring return `avail.ring[(c + j) mod N]` for `j = 0 .. k-1` in that order, every such index
lying within the ring, and leave the cursor at `(c + k) mod 2 ^ 16`. -/
theorem virt_queue__pop_many_spec (k : Nat) (queue : virt_queue) (avail : vring_avail)
    (e : Nat) (havail : queue.vring.avail = some avail)
    (hnum : queue.vring.num = 2 ^ e) (he : e ≤ 15)
    (hring : avail.ring.length = queue.vring.num)
    (hcur : queue.last_avail_idx < 2 ^ 16) :
    ∃ heads, virt_queue__pop_many k queue =
        some (heads, { queue with last_avail_idx := (queue.last_avail_idx + k) % 2 ^ 16 }) ∧
      heads.length = k ∧
      ∀ j, j < k →
        (queue.last_avail_idx + j) % queue.vring.num < avail.ring.length ∧
        heads[j]? = avail.ring[(queue.last_avail_idx + j) % queue.vring.num]? := by
  have hpos : 0 < queue.vring.num := by rw [hnum]; positivity
  have hdvd : queue.vring.num ∣ 2 ^ 16 := by
    rw [hnum]
    exact Nat.pow_dvd_pow 2 (by omega)
  induction k generalizing queue with
  | zero =>
    refine ⟨[], ?_, rfl, ?_⟩
    · have hq : queue.last_avail_idx % 2 ^ 16 = queue.last_avail_idx := Nat.mod_eq_of_lt hcur
      simp only [virt_queue__pop_many, Nat.add_zero, hq]
    · intro j hj
      omega
  | succ k ih =>
    obtain ⟨hslot, hpop⟩ := virt_queue__pop_eq queue avail havail hpos hring
    obtain ⟨heads, hmany, hlen, hheads⟩ :=
      ih { queue with last_avail_idx := (queue.last_avail_idx + 1) % 2 ^ 16 }
        havail hnum hring (Nat.mod_lt _ (by norm_num)) hpos hdvd
    refine ⟨avail.ring[queue.last_avail_idx % queue.vring.num] :: heads, ?_, ?_, ?_⟩
    · simp only [virt_queue__pop_many, hpop, hmany, cursor_after_wrapped]
    · simp [hlen]
    · intro j hj
      refine ⟨by rw [hring]; exact Nat.mod_lt _ hpos, ?_⟩
      cases j with
      | zero => simp [List.getElem?_eq_getElem hslot]
      | succ j =>
        have hj1 := (hheads j (by omega)).2
        simp only [slot_of_wrapped_cursor _ _ _ hdvd] at hj1
        simpa using hj1

/-- C8 at a concrete queue: ring size 4, ring `[10, 11, 12, 13]`, cursor 65534, three pops:
the slots 2, 3, 0 are read across the wrap of the cursor, which ends at 1. -/
theorem virt_queue__pop_many_spec_witness :
    ∃ heads, virt_queue__pop_many 3
        { vring := { num := 4, desc := none,
                     avail := some { flags := 0, idx := 1, ring := [10, 11, 12, 13] },
                     used := none },
          pfn := 7, last_avail_idx := 65534 } =
        some (heads,
          { vring := { num := 4, desc := none,
                       avail := some { flags := 0, idx := 1, ring := [10, 11, 12, 13] },
                       used := none },
            pfn := 7, last_avail_idx := (65534 + 3) % 2 ^ 16 }) ∧
      heads.length = 3 ∧
      ∀ j, j < 3 →
        (65534 + j) % 4 < [10, 11, 12, 13].length ∧
        heads[j]? = [10, 11, 12, 13][(65534 + j) % 4]? :=
  virt_queue__pop_many_spec 3
    { vring := { num := 4, desc := none,
                 avail := some { flags := 0, idx := 1, ring := [10, 11, 12, 13] },
                 used := none },
      pfn := 7, last_avail_idx := 65534 }
    { flags := 0, idx := 1, ring := [10, 11, 12, 13] } 2 rfl rfl (by decide) rfl (by decide)

/-! ## Theorems: guest addresses -/

/-- Where `unsigned long` has at least 44 bits (so on every 64-bit host), the address
`guest_pfn_to_host` translates is `pfn * 4096` for every 32-bit `pfn`. -/
theorem guest_pfn_to_host_wide (ulong_bits : Nat) (self : kvm) (pfn : Nat)
    (hbits : 44 ≤ ulong_bits) (hpfn : pfn < 2 ^ 32) :
    guest_pfn_to_host ulong_bits self pfn = guest_flat_to_host self (pfn * 4096) := by
  have hpow : (2 : Nat) ^ 44 ≤ 2 ^ ulong_bits := Nat.pow_le_pow_right (by norm_num) hbits
  have h1 : pfn % 2 ^ ulong_bits = pfn := Nat.mod_eq_of_lt (by omega)
  have h2 : pfn * 4096 % 2 ^ ulong_bits = pfn * 4096 := Nat.mod_eq_of_lt (by omega)
  simp only [guest_pfn_to_host, VIRTIO_PCI_QUEUE_ADDR_SHIFT, Nat.shiftLeft_eq, h1]
  norm_num [h2]

/-- C3, the code at its failing input: with a 32-bit `unsigned long`, a 64 MiB guest region
at host address 4096 and `pfn = 2 ^ 20`, the shift wraps to 0, so `guest_pfn_to_host`
returns the host address of guest address 0 (the base, 4096), whereas
`guest_flat_to_host(kvm, pfn * 4096)` is the translation of guest address `2 ^ 32`, which
lies outside the region. -/
theorem guest_pfn_to_host_truncates :
    guest_pfn_to_host 32 { ram_start := 4096, ram_size := 2 ^ 26, nrcpus := 1 } (2 ^ 20) =
      some 4096 ∧
    guest_pfn_to_host 32 { ram_start := 4096, ram_size := 2 ^ 26, nrcpus := 1 } (2 ^ 20) =
      guest_flat_to_host { ram_start := 4096, ram_size := 2 ^ 26, nrcpus := 1 } 0 ∧
    guest_flat_to_host { ram_start := 4096, ram_size := 2 ^ 26, nrcpus := 1 }
      (2 ^ 20 * 4096) = none ∧
    guest_pfn_to_host 32 { ram_start := 4096, ram_size := 2 ^ 26, nrcpus := 1 } (2 ^ 20) ≠
      guest_flat_to_host { ram_start := 4096, ram_size := 2 ^ 26, nrcpus := 1 }
        (2 ^ 20 * 4096) := by
  simp [guest_pfn_to_host, guest_flat_to_host, VIRTIO_PCI_QUEUE_ADDR_SHIFT, Nat.shiftLeft_eq]

/-! ## Theorems: exit code, RAM size and CPU count of `kvm_cmd_run` -/

/-- The join loop started with any `exit_code`: the result is 1 as soon as one completion
value is not null, and the starting value otherwise. -/
theorem join_foldl (rets : List Nat) (exit_code : Int) :
    rets.foldl (fun exit_code ret => if ret ≠ 0 then 1 else exit_code) exit_code =
      if ∃ ret ∈ rets, ret ≠ 0 then 1 else exit_code := by
  induction rets generalizing exit_code with
  | nil => simp
  | cons ret rest ih =>
    rw [List.foldl_cons, ih]
    by_cases hret : ret = 0
    · simp [hret]
    · simp [hret]

/-- The exit code of `kvm_cmd_run` is 1 if some vCPU thread ended with a non-zero
`kvm_cpu__start` result and 0 otherwise. -/
theorem kvm_cmd_run_exit_code_eq (start_results : List Int) :
    kvm_cmd_run_exit_code start_results =
      if ∃ r ∈ start_results, r ≠ 0 then 1 else 0 := by
  unfold kvm_cmd_run_exit_code kvm_cmd_run_join
  rw [join_foldl]
  have hiff : (∃ ret ∈ start_results.map kvm_cpu_thread, ret ≠ 0) ↔
      ∃ r ∈ start_results, r ≠ 0 := by
    constructor
    · rintro ⟨ret, hmem, hne⟩
      obtain ⟨r, hr, rfl⟩ := List.mem_map.mp hmem
      refine ⟨r, hr, ?_⟩
      intro h0
      simp [kvm_cpu_thread, h0] at hne
    · rintro ⟨r, hr, hne⟩
      exact ⟨kvm_cpu_thread r, List.mem_map.mpr ⟨r, hr, rfl⟩, by simp [kvm_cpu_thread, hne]⟩
  simp only [hiff]

/-- C4: with all vCPU threads joined, `kvm_cmd_run` returns 0 if `kvm_cpu__start` returned
0 on every vCPU thread and 1 if it returned non-zero on at least one, and the value is the
same for every order in which the threads are joined. -/
theorem kvm_cmd_run_exit_code_spec (start_results : List Int) :
    ((∀ r ∈ start_results, r = 0) → kvm_cmd_run_exit_code start_results = 0) ∧
    ((∃ r ∈ start_results, r ≠ 0) → kvm_cmd_run_exit_code start_results = 1) ∧
    (∀ joined : List Int, joined.Perm start_results →
      kvm_cmd_run_exit_code joined = kvm_cmd_run_exit_code start_results) := by
  refine ⟨?_, ?_, ?_⟩
  · intro hall
    rw [kvm_cmd_run_exit_code_eq, if_neg]
    rintro ⟨r, hr, hne⟩
    exact hne (hall r hr)
  · intro hex
    rw [kvm_cmd_run_exit_code_eq, if_pos hex]
  · intro joined hperm
    rw [kvm_cmd_run_exit_code_eq, kvm_cmd_run_exit_code_eq]
    have hiff : (∃ r ∈ joined, r ≠ 0) ↔ ∃ r ∈ start_results, r ≠ 0 := by
      constructor
      · rintro ⟨r, hr, hne⟩
        exact ⟨r, hperm.mem_iff.mp hr, hne⟩
      · rintro ⟨r, hr, hne⟩
        exact ⟨r, hperm.mem_iff.mpr hr, hne⟩
    simp only [hiff]

/-- A memory size from 64 MiB up to, not including, `2 ^ 44` MiB does not abort the run
and gives the VM exactly `m * 2 ^ 20` bytes, at least `MIN_RAM_SIZE_BYTE`, with the
warning printed exactly when `m` exceeds the host RAM; a non-zero size below 64 aborts. -/
theorem kvm_cmd_run_ram_in_range (m auto_ram host_ram : Nat) :
    (64 ≤ m → m < 2 ^ 44 →
      kvm_cmd_run_ram m auto_ram host_ram = some (decide (m > host_ram), m * 2 ^ 20) ∧
      MIN_RAM_SIZE_BYTE ≤ m * 2 ^ 20) ∧
    (0 < m → m < 64 → kvm_cmd_run_ram m auto_ram host_ram = none) := by
  constructor
  · intro hlo hhi
    have hm : m ≠ 0 := by omega
    have hmin : ¬ m < MIN_RAM_SIZE_MB := by simp only [MIN_RAM_SIZE_MB]; omega
    have hwrap : m * 2 ^ 20 % 2 ^ 64 = m * 2 ^ 20 := Nat.mod_eq_of_lt (by omega)
    refine ⟨?_, ?_⟩
    · simp only [kvm_cmd_run_ram, hm, if_false, hmin, MB_SHIFT, Nat.shiftLeft_eq, hwrap]
    · simp only [MIN_RAM_SIZE_BYTE, MIN_RAM_SIZE_MB, MB_SHIFT, Nat.shiftLeft_eq]
      omega
  · intro hpos hlt
    have hm : m ≠ 0 := by omega
    have hmin : m < MIN_RAM_SIZE_MB := by simp only [MIN_RAM_SIZE_MB]; omega
    simp only [kvm_cmd_run_ram, hm, if_false, hmin, if_true]

/-- C7, the code at its failing input: `--mem 17592186044416` (`2 ^ 44` MiB) passes the
minimum check, only draws the warning, and the 64-bit shift `ram_size <<= MB_SHIFT` wraps
to 0, so `kvm__init` is asked for 0 bytes, not for `2 ^ 44 * 2 ^ 20` and less than
`MIN_RAM_SIZE_BYTE`. -/
theorem kvm_cmd_run_ram_wraps :
    kvm_cmd_run_ram (2 ^ 44) 256 8192 = some (true, 0) ∧
    64 ≤ 2 ^ 44 ∧ 2 ^ 44 < 2 ^ 64 ∧ (0 : Nat) ≠ 2 ^ 44 * 2 ^ 20 ∧ 0 < MIN_RAM_SIZE_BYTE := by
  simp [kvm_cmd_run_ram, MIN_RAM_SIZE_BYTE, MIN_RAM_SIZE_MB, MB_SHIFT, Nat.shiftLeft_eq]

/-- After the limiting step of `kvm_cmd_run`, `kvm->nrcpus` is the requested `nrcpus`
whatever `max_cpus` is: the unconditional assignment comes last. -/
theorem kvm_cmd_run_limit_cpus_eq (self : kvm) (nrcpus max_cpus : Int) :
    (kvm_cmd_run_limit_cpus self nrcpus max_cpus).nrcpus = nrcpus := by
  simp [kvm_cmd_run_limit_cpus]

/-- C9, the code at its failing input: with `nrcpus = 2` requested and `max_cpus = 1`, the
limiting step leaves `kvm->nrcpus = 2`, whereas `min(nrcpus, max_cpus)` is 1. -/
theorem kvm_cmd_run_limit_cpus_overwritten :
    (kvm_cmd_run_limit_cpus { ram_start := 4096, ram_size := 2 ^ 26, nrcpus := 0 } 2 1).nrcpus
      = 2 ∧
    min (2 : Int) 1 = 1 ∧
    (kvm_cmd_run_limit_cpus { ram_start := 4096, ram_size := 2 ^ 26, nrcpus := 0 } 2 1).nrcpus
      ≠ min (2 : Int) 1 := by
  simp [kvm_cmd_run_limit_cpus]

/-! ## Theorems: disk image arguments -/

/-- A text without NUL, followed by its terminator, reads back as the text. -/
theorem c_str_text (arg : List Nat) (htext : 0 ∉ arg) : c_str (arg ++ [0]) = arg := by
  induction arg with
  | nil => simp [c_str]
  | cons b rest ih =>
    have hb : b ≠ 0 := fun h => htext (by simp [h])
    have hrest : 0 ∉ rest := fun h => htext (List.mem_cons_of_mem _ h)
    have ih1 := ih hrest
    simp only [c_str] at ih1 ⊢
    simpa [List.takeWhile_cons, hb] using ih1

/-- On a NUL-terminated text, `strstr(arg, ",")` finds the first comma when there is one:
its offset is the length of the text before it. -/
theorem strstr_comma_text (arg : List Nat) (htext : 0 ∉ arg) :
    strstr_comma (arg ++ [0]) =
      if 44 ∈ arg then some (arg.takeWhile (fun b => b ≠ 44)).length else none := by
  induction arg with
  | nil => simp [strstr_comma]
  | cons b rest ih =>
    have hb : b ≠ 0 := fun h => htext (by simp [h])
    have hrest : 0 ∉ rest := fun h => htext (List.mem_cons_of_mem _ h)
    by_cases hc : b = 44
    · subst hc
      simp [strstr_comma, List.takeWhile_cons]
    · have hc1 : ¬ 44 = b := fun h => hc h.symm
      have hstep : strstr_comma (b :: (rest ++ [0])) =
          (strstr_comma (rest ++ [0])).map (fun i => i + 1) := by
        simp only [strstr_comma, hb, hc, if_false]
      rw [List.cons_append, hstep, ih hrest]
      by_cases hmem : 44 ∈ rest
      · simp [hmem, hc, hc1, List.takeWhile_cons]
      · simp [hmem, hc1]

/-- Writing NUL over the first comma leaves the text before the comma as the C string. -/
theorem c_str_cut (arg : List Nat) (htext : 0 ∉ arg) (hcomma : 44 ∈ arg) :
    c_str ((arg ++ [0]).set (arg.takeWhile (fun b => b ≠ 44)).length 0) =
      arg.takeWhile (fun b => b ≠ 44) := by
  induction arg with
  | nil => simp at hcomma
  | cons b rest ih =>
    have hb : b ≠ 0 := fun h => htext (by simp [h])
    have hrest : 0 ∉ rest := fun h => htext (List.mem_cons_of_mem _ h)
    by_cases hc : b = 44
    · subst hc
      simp [c_str, List.takeWhile_cons]
    · have hmem : 44 ∈ rest := by
        rcases List.mem_cons.mp hcomma with h | h
        · exact absurd h.symm hc
        · exact h
      have ih1 := ih hrest hmem
      simp only [c_str] at ih1 ⊢
      simpa [List.takeWhile_cons, hc, hb] using ih1

/-- The C string right after the first comma is the rest of the text. -/
theorem c_str_after (arg : List Nat) (htext : 0 ∉ arg) (hcomma : 44 ∈ arg) :
    c_str ((arg ++ [0]).drop ((arg.takeWhile (fun b => b ≠ 44)).length + 1)) =
      (arg.dropWhile (fun b => b ≠ 44)).tail := by
  induction arg with
  | nil => simp at hcomma
  | cons b rest ih =>
    have hrest : 0 ∉ rest := fun h => htext (List.mem_cons_of_mem _ h)
    by_cases hc : b = 44
    · subst hc
      simp [List.takeWhile_cons, List.dropWhile_cons, c_str_text rest hrest]
    · have hmem : 44 ∈ rest := by
        rcases List.mem_cons.mp hcomma with h | h
        · exact absurd h.symm hc
        · exact h
      simpa [List.takeWhile_cons, List.dropWhile_cons, hc] using ih hrest hmem

/-- A text is its part before the first comma, the comma, and the part after it. -/
theorem text_split_at_comma (arg : List Nat) (hcomma : 44 ∈ arg) :
    arg = arg.takeWhile (fun b => b ≠ 44) ++ 44 :: (arg.dropWhile (fun b => b ≠ 44)).tail := by
  induction arg with
  | nil => simp at hcomma
  | cons b rest ih =>
    by_cases hc : b = 44
    · subst hc
      simp [List.takeWhile_cons, List.dropWhile_cons]
    · have hmem : 44 ∈ rest := by
        rcases List.mem_cons.mp hcomma with h | h
        · exact absurd h.symm hc
        · exact h
      simpa [List.takeWhile_cons, List.dropWhile_cons, hc] using ih hmem

/-- The part before the first comma holds no comma. -/
theorem no_comma_before_comma (arg : List Nat) :
    44 ∉ arg.takeWhile (fun b => b ≠ 44) := by
  intro hmem
  have := List.mem_takeWhile_imp hmem
  simp at this

/-- A text made of a comma-free name and a suffix after a comma splits there. -/
theorem split_of_name (name suffix : List Nat) (hname : 44 ∉ name) :
    (name ++ 44 :: suffix).takeWhile (fun b => b ≠ 44) = name ∧
    ((name ++ 44 :: suffix).dropWhile (fun b => b ≠ 44)).tail = suffix := by
  induction name with
  | nil => simp [List.takeWhile_cons, List.dropWhile_cons]
  | cons b rest ih =>
    have hb : b ≠ 44 := fun h => hname (by simp [h])
    have hrest : 44 ∉ rest := fun h => hname (List.mem_cons_of_mem _ h)
    simpa [List.takeWhile_cons, List.dropWhile_cons, hb] using ih hrest

/-- The read-only test of `img_name_parser` in terms of the text: there is a comma and the
text after the first one is `ro`, exactly when the text is a comma-free name followed by
`,ro`. -/
theorem readonly_text_iff (arg : List Nat) :
    (44 ∈ arg ∧ (arg.dropWhile (fun b => b ≠ 44)).tail = [114, 111]) ↔
      ∃ name, 44 ∉ name ∧ arg = name ++ [44, 114, 111] := by
  constructor
  · rintro ⟨hcomma, htail⟩
    refine ⟨arg.takeWhile (fun b => b ≠ 44), no_comma_before_comma arg, ?_⟩
    have hsplit := text_split_at_comma arg hcomma
    rw [htail] at hsplit
    exact hsplit
  · rintro ⟨name, hname, rfl⟩
    exact ⟨by simp, (split_of_name name [114, 111] hname).2⟩

/-- The initial globals are fresh. -/
theorem run_globals_init_fresh : run_globals_fresh run_globals_init := by
  decide

/-- A successful call of `img_name_parser` starts with fewer than 4 images, adds one, and
keeps the globals fresh. -/
theorem img_name_parse_fresh (g g1 : run_globals) (buf : List Nat)
    (hcall : img_name_parse g buf = some g1) (hfresh : run_globals_fresh g) :
    g.image_count < MAX_DISK_IMAGES ∧ g1.image_count = g.image_count + 1 ∧
      run_globals_fresh g1 := by
  obtain ⟨hcount, hnames, hflags, hclear⟩ := hfresh
  unfold img_name_parse at hcall
  split at hcall
  · simp at hcall
  · rename_i hlt
    have hlt4 : g.image_count < 4 := by
      simp only [MAX_DISK_IMAGES] at hlt
      omega
    have hwrap : (g.image_count + 1) % 2 ^ 8 = g.image_count + 1 := Nat.mod_eq_of_lt (by omega)
    simp only [MAX_DISK_IMAGES] at hcount hnames hflags hclear ⊢
    split at hcall
    · simp only [Option.some.injEq] at hcall
      subst hcall
      refine ⟨hlt4, hwrap, ?_, ?_, hflags, ?_⟩
      · simp only [hwrap]; omega
      · simp [hnames, MAX_DISK_IMAGES]
      · intro i hi hle
        simp only [hwrap] at hle
        exact hclear i hi (by omega)
    · simp only [Option.some.injEq] at hcall
      subst hcall
      refine ⟨hlt4, hwrap, ?_, ?_, ?_, ?_⟩
      · simp only [hwrap]; omega
      · simp [hnames, MAX_DISK_IMAGES]
      · split <;> simp [hflags, MAX_DISK_IMAGES]
      · intro i hi hle
        simp only [hwrap] at hle
        have hne : g.image_count ≠ i := by omega
        split
        · rw [List.getElem?_set_ne hne]
          exact hclear i hi (by omega)
        · exact hclear i hi (by omega)

/-- Every state the option parser reaches from a fresh one is fresh. -/
theorem img_name_parse_all_fresh (bufs : List (List Nat)) (g g1 : run_globals)
    (hrun : img_name_parse_all bufs g = some g1) (hfresh : run_globals_fresh g) :
    run_globals_fresh g1 := by
  induction bufs generalizing g with
  | nil =>
    simp only [img_name_parse_all, Option.some.injEq] at hrun
    exact hrun ▸ hfresh
  | cons buf rest ih =>
    simp only [img_name_parse_all] at hrun
    cases hcall : img_name_parse g buf with
    | none => simp [hcall] at hrun
    | some g2 =>
      simp only [hcall] at hrun
      exact ih g2 hrun (img_name_parse_fresh g g2 buf hcall hfresh).2.2

/-- C6: in any state the option parser reaches from the initial one, a disk argument `arg`
(a text without NUL, passed NUL-terminated) is handled as follows.  While fewer than 4
images are registered, `img_name_parser` succeeds, `image_count` grows by exactly 1, the
slot `image_filename[image_count]` holds the argument up to its first comma, the flag
`readonly_image[image_count]` is set if and only if the argument is a comma-free name
followed by `,ro`, and the other slots are untouched.  When 4 images are registered the
call fails fatally and stores nothing. -/
theorem img_name_parse_spec (earlier : List (List Nat)) (g : run_globals) (arg : List Nat)
    (hreach : img_name_parse_all earlier run_globals_init = some g)
    (htext : 0 ∉ arg) :
    (g.image_count < MAX_DISK_IMAGES →
      ∃ g1, img_name_parse g (arg ++ [0]) = some g1 ∧
        g1.image_count = g.image_count + 1 ∧
        (∃ buf, g1.image_filename[g.image_count]? = some (some buf) ∧
          c_str buf = arg.takeWhile (fun b => b ≠ 44)) ∧
        (∃ ro, g1.readonly_image[g.image_count]? = some ro ∧
          (ro = true ↔ ∃ name, 44 ∉ name ∧ arg = name ++ [44, 114, 111])) ∧
        (∀ i, i ≠ g.image_count →
          g1.image_filename[i]? = g.image_filename[i]? ∧
          g1.readonly_image[i]? = g.readonly_image[i]?)) ∧
    (MAX_DISK_IMAGES ≤ g.image_count → img_name_parse g (arg ++ [0]) = none) := by
  obtain ⟨-, hnames, hflags, hclear⟩ :=
    img_name_parse_all_fresh earlier run_globals_init g hreach run_globals_init_fresh
  simp only [MAX_DISK_IMAGES] at hnames hflags hclear ⊢
  constructor
  · intro hlt
    have hnot : ¬ g.image_count ≥ MAX_DISK_IMAGES := by
      simp only [MAX_DISK_IMAGES]; omega
    have hwrap : (g.image_count + 1) % 2 ^ 8 = g.image_count + 1 := Nat.mod_eq_of_lt (by omega)
    have hslot_n : g.image_count < g.image_filename.length := by omega
    have hslot_f : g.image_count < g.readonly_image.length := by omega
    have hold : g.readonly_image[g.image_count]? = some false :=
      hclear g.image_count hlt (Nat.le_refl _)
    by_cases hcomma : 44 ∈ arg
    · have hsep := strstr_comma_text arg htext
      rw [if_pos hcomma] at hsep
      by_cases hro : (arg.dropWhile (fun b => b ≠ 44)).tail = [114, 111]
      · have hro1 : c_str ((arg ++ [0]).drop ((arg.takeWhile (fun b => b ≠ 44)).length + 1)) =
            [114, 111] := by rw [c_str_after arg htext hcomma, hro]
        refine ⟨{ g with
            image_filename := g.image_filename.set g.image_count
              (some ((arg ++ [0]).set (arg.takeWhile (fun b => b ≠ 44)).length 0)),
            readonly_image := g.readonly_image.set g.image_count true,
            image_count := (g.image_count + 1) % 2 ^ 8 },
          by simp only [img_name_parse, hnot, if_false, hsep, hro1, if_true],
          hwrap, ⟨_, by simp [hslot_n], c_str_cut arg htext hcomma⟩,
          ⟨true, by simp [hslot_f], ?_⟩, ?_⟩
        · simp only [true_iff]
          exact (readonly_text_iff arg).mp ⟨hcomma, hro⟩
        · intro i hi
          exact ⟨List.getElem?_set_ne (Ne.symm hi), List.getElem?_set_ne (Ne.symm hi)⟩
      · have hro1 : ¬ c_str ((arg ++ [0]).drop ((arg.takeWhile (fun b => b ≠ 44)).length + 1)) =
            [114, 111] := by rw [c_str_after arg htext hcomma]; exact hro
        refine ⟨{ g with
            image_filename := g.image_filename.set g.image_count
              (some ((arg ++ [0]).set (arg.takeWhile (fun b => b ≠ 44)).length 0)),
            image_count := (g.image_count + 1) % 2 ^ 8 },
          by simp only [img_name_parse, hnot, if_false, hsep, hro1],
          hwrap, ⟨_, by simp [hslot_n], c_str_cut arg htext hcomma⟩,
          ⟨false, hold, ?_⟩, ?_⟩
        · simp only [Bool.false_eq_true, false_iff]
          intro hex
          exact hro ((readonly_text_iff arg).mpr hex).2
        · intro i hi
          exact ⟨List.getElem?_set_ne (Ne.symm hi), rfl⟩
    · have hsep := strstr_comma_text arg htext
      rw [if_neg hcomma] at hsep
      have hwhole : arg.takeWhile (fun b => b ≠ 44) = arg := by
        rw [List.takeWhile_eq_self_iff]
        intro b hb
        have : b ≠ 44 := fun h => hcomma (h ▸ hb)
        simpa using this
      refine ⟨{ g with
          image_filename := g.image_filename.set g.image_count (some (arg ++ [0])),
          image_count := (g.image_count + 1) % 2 ^ 8 },
        by simp only [img_name_parse, hnot, if_false, hsep],
        hwrap, ⟨arg ++ [0], by simp [hslot_n], by rw [c_str_text arg htext, hwhole]⟩,
        ⟨false, hold, ?_⟩, ?_⟩
      · simp only [Bool.false_eq_true, false_iff]
        intro hex
        exact hcomma ((readonly_text_iff arg).mpr hex).1
      · intro i hi
        exact ⟨List.getElem?_set_ne (Ne.symm hi), rfl⟩
  · intro hfull
    have hge : g.image_count ≥ MAX_DISK_IMAGES := by
      simp only [MAX_DISK_IMAGES]; omega
    simp only [img_name_parse, hge, if_true]

/-- C6 at concrete inputs.  After `--disk a`, the argument `d,ro` (bytes 100, 44, 114, 111)
goes to slot 1 with file name `d` and the read-only flag set; after four `--disk a`, the
same argument is refused. -/
theorem img_name_parse_spec_witness :
    (img_name_parse_all [[97, 0]] run_globals_init =
        some { image_count := 1, image_filename := [some [97, 0], none, none, none],
               readonly_image := [false, false, false, false] } ∧
      0 ∉ [100, 44, 114, 111]) ∧
    (∃ g1, img_name_parse
          { image_count := 1, image_filename := [some [97, 0], none, none, none],
            readonly_image := [false, false, false, false] }
          ([100, 44, 114, 111] ++ [0]) = some g1 ∧
        g1.image_count = 1 + 1 ∧
        (∃ buf, g1.image_filename[1]? = some (some buf) ∧
          c_str buf = [100, 44, 114, 111].takeWhile (fun b => b ≠ 44)) ∧
        (∃ ro, g1.readonly_image[1]? = some ro ∧
          (ro = true ↔ ∃ name, 44 ∉ name ∧ [100, 44, 114, 111] = name ++ [44, 114, 111])) ∧
        (∀ i, i ≠ 1 →
          g1.image_filename[i]? = [some [97, 0], none, none, none][i]? ∧
          g1.readonly_image[i]? = [false, false, false, false][i]?)) ∧
    img_name_parse
        { image_count := 4,
          image_filename := [some [97, 0], some [97, 0], some [97, 0], some [97, 0]],
          readonly_image := [false, false, false, false] }
        ([100, 44, 114, 111] ++ [0]) = none :=
  ⟨⟨rfl, by decide⟩,
    (img_name_parse_spec [[97, 0]]
      { image_count := 1, image_filename := [some [97, 0], none, none, none],
        readonly_image := [false, false, false, false] }
      [100, 44, 114, 111] rfl (by decide)).1 (by decide),
    (img_name_parse_spec [[97, 0], [97, 0], [97, 0], [97, 0]]
      { image_count := 4,
        image_filename := [some [97, 0], some [97, 0], some [97, 0], some [97, 0]],
        readonly_image := [false, false, false, false] }
      [100, 44, 114, 111] rfl (by decide)).2 (by decide)⟩

end Kvm
